import Mathlib

set_option linter.unusedVariables false

namespace CommitsViewer

/-!
Verification development for the commit-timesheet extension
(`src/extension.js`, `src/webview/App.vue`).  JavaScript strings are
modelled as Lean `String`s, single-character `String.prototype.split` as
`splitOnChar`, and host primitives (`new Date`, `git` subprocesses, the
file system, locale formatting) as explicit function parameters.
-/

/-- Models JavaScript `str.split(sep)` for a single-character separator,
at the level of character lists.  `"".split(s)` is `[""]`. -/
def splitOnChar (sep : Char) : List Char → List (List Char)
  | [] => [[]]
  | c :: rest =>
    let r := splitOnChar sep rest
    if c = sep then [] :: r else (c :: r.headD []) :: r.tail

/-- JavaScript `str.split(sep)` for a single-character separator,
producing `String`s. -/
def jsSplit (sep : Char) (s : String) : List String :=
  (splitOnChar sep s.data).map String.mk

/-- Drops leading whitespace characters. -/
def trimLeftChars : List Char → List Char
  | [] => []
  | c :: rest => if c.isWhitespace then trimLeftChars rest else c :: rest

/-- Models `String.prototype.trim`: whitespace stripped from both ends
(the strings this code trims only ever carry ASCII whitespace). -/
def jsTrim (s : String) : String :=
  String.mk (trimLeftChars (trimLeftChars s.data.reverse).reverse)

/-- Models the type derivation inside `normalize`
(`src/extension.js:337`, `src/webview/App.vue:143`).  The regex
`^([a-zA-Z]+)(?=\(|:)` matches exactly when the maximal leading run of
ASCII letters is non-empty and the character right after it is `(` or `:`
(a shorter alpha prefix is always followed by another letter, so
backtracking never succeeds elsewhere); the tag is that run lower-cased,
otherwise "other". -/
def classify (message : String) : String :=
  let run := message.data.takeWhile Char.isAlpha
  match run, message.data.drop run.length with
  | [], _ => "other"
  | _, [] => "other"
  | _, c :: _ =>
    if c = '(' || c = ':' then String.mk (run.map Char.toLower) else "other"

/-- A commit record as built by `fetchCommits` in `src/extension.js`.
JS destructuring of a short array leaves fields `undefined`, modelled as
`none` (the first field always exists because empty records are filtered
out before the per-record split). -/
structure XCommit where
  author : String
  date : Option String
  hash : String
  message : Option String
  repoPath : String
  repoLabel : String
deriving DecidableEq, Repr

/-- One record parsed as in the `forEach` body of `fetchCommits`
(`src/extension.js:122-132`): split on `\x1f`, positional fields, and
`authorName || author` falling back when the fourth field is missing or
empty. -/
def parseLine (author repoPath repoLabel : String) (line : String) : XCommit :=
  let fields := jsSplit '\x1f' line
  { hash := fields.headD ""
    date := fields[1]?
    message := fields[2]?
    author := match fields[3]? with
      | some a => if a = "" then author else a
      | none => author
    repoPath := repoPath
    repoLabel := repoLabel }

/-- The record-level parse of one repository's raw log output
(`src/extension.js:119-133`): split on `\x1e`, drop empty fragments
(`filter(Boolean)`), parse each record. -/
def parseRecords (author repoPath repoLabel : String) (raw : String) : List XCommit :=
  ((jsSplit '\x1e' raw).filter (fun l => l ≠ "")).map (parseLine author repoPath repoLabel)

/-- The effective author (`src/extension.js:112`):
`(authorSetting && authorSetting.trim()) || safeExec(git config user.name).trim()`.
A missing or whitespace-only setting falls back to the repository's
configured identity. -/
def effectiveAuthor (authorSetting : Option String) (gitConfigUserName : String) : String :=
  let fromSetting := match authorSetting with
    | some s => jsTrim s
    | none => ""
  if fromSetting = "" then jsTrim gitConfigUserName else fromSetting

/-- Models `fetchCommits` (`src/extension.js:98-136`).  The two host
subprocesses are parameters returning `none` on command failure
(`safeExec` catches any failure and returns `""`); `repoLabelOf` stands
for `workspaceRelativePath(p) || path.basename(p)`.  The since-window and
author arguments of the log command are fixed by the enclosing call, so
`gitLog` is a function of the repository path alone. -/
def fetchCommits (repoPaths : List String) (authorSetting : Option String)
    (gitConfigUserName : String → Option String) (gitLog : String → Option String)
    (repoLabelOf : String → String) : List XCommit :=
  repoPaths.flatMap fun repoPath =>
    let author := effectiveAuthor authorSetting ((gitConfigUserName repoPath).getD "")
    let raw := (gitLog repoPath).getD ""
    if jsTrim raw = "" then []
    else parseRecords author repoPath (repoLabelOf repoPath) raw

/-- The UTC day number of an instant given in epoch milliseconds: the
floor of division by 86400000, as underlies `Date.prototype.toISOString`. -/
def utcDayNumber (ms : Int) : Int := Int.fdiv ms 86400000

/-- Civil-from-days (Howard Hinnant's algorithm): the proleptic Gregorian
`(year, month, day)` of a day number counted from 1970-01-01, as rendered
by `toISOString`. -/
def civilFromDays (z : Int) : Int × Nat × Nat :=
  let zs := z + 719468
  let era : Int := Int.fdiv zs 146097
  let doe : Nat := (zs - era * 146097).toNat
  let yoe : Nat := (doe - doe / 1460 + doe / 36524 - doe / 146096) / 365
  let doy : Nat := doe - (365 * yoe + yoe / 4 - yoe / 100)
  let mp : Nat := (5 * doy + 2) / 153
  let d : Nat := doy - (153 * mp + 2) / 5 + 1
  let m : Nat := if mp < 10 then mp + 3 else mp - 9
  (era * 400 + (yoe : Int) + (if m ≤ 2 then 1 else 0), m, d)

/-- Two-digit zero-padded decimal rendering (faithful for `n < 100`). -/
def pad2 (n : Nat) : List Char := [Nat.digitChar (n / 10 % 10), Nat.digitChar (n % 10)]

/-- Four-digit zero-padded decimal rendering (faithful for `n < 10000`,
the year range in which `toISOString` uses the plain `YYYY` form). -/
def pad4 (n : Nat) : List Char := pad2 (n / 100) ++ pad2 (n % 100)

/-- The group key computed by `grouped`
(`src/extension.js:396`, `src/webview/App.vue:199`):
`commit.dateObj.toISOString().slice(0, 10)`, i.e. the zero-padded UTC
calendar date `YYYY-MM-DD` of the instant. -/
def utcDateKey (ms : Int) : String :=
  let c := civilFromDays (utcDayNumber ms)
  String.mk (pad4 c.1.toNat ++ '-' :: pad2 c.2.1 ++ '-' :: pad2 c.2.2)

/-- Modelled from the spec: the calendar day of a timestamp "in local
time", for a host whose local UTC offset is `offsetMinutes`.  The code
itself never computes a local calendar day (its keys come from
`toISOString`, which is UTC); this definition exists to state the spec's
notion. -/
def localDayNumber (offsetMinutes : Int) (ms : Int) : Int :=
  Int.fdiv (ms + offsetMinutes * 60000) 86400000

/-- A raw commit as received by the webview (`RawCommit` in
`src/webview/App.vue`). -/
structure RawCommit where
  author : String
  date : String
  hash : String
  message : String
  repoPath : String
  repoLabel : String
deriving DecidableEq, Repr

/-- A normalized commit (`Commit` in `src/webview/App.vue`): the raw
fields plus the classified `type` and `dateObj`, the parsed instant in
epoch milliseconds. -/
structure NCommit where
  author : String
  date : String
  hash : String
  message : String
  repoPath : String
  repoLabel : String
  type : String
  dateObj : Int
deriving DecidableEq, Repr

/-- Models `normalize` (`src/extension.js:335-341`,
`src/webview/App.vue:141-147`).  `parseDate` stands for the host
ISO-8601 parser `new Date(commit.date)`, yielding epoch milliseconds. -/
def normalize (parseDate : String → Int) (commits : List RawCommit) : List NCommit :=
  commits.map fun c =>
    { author := c.author, date := c.date, hash := c.hash, message := c.message
      repoPath := c.repoPath, repoLabel := c.repoLabel
      type := classify c.message, dateObj := parseDate c.date }

/-- The user-controlled view state (search term, type filter, since date,
sort direction). -/
structure ViewState where
  search : String
  typeFilter : String
  since : String
  sort : String
deriving DecidableEq, Repr

/-- The fixed vocabulary `["feat", "fix", "refactor", "build", "merge"]`
(`typeKinds` in `src/webview/App.vue:139`). -/
def typeKinds : List String := ["feat", "fix", "refactor", "build", "merge"]

/-- The type-filter stage of `filtered` (`src/extension.js:376-380`,
`src/webview/App.vue:179-183`), mirroring the nested early returns. -/
def typePass (typeFilter ctype : String) : Bool :=
  if typeFilter != "all" && ctype != typeFilter then
    if !(typeFilter == "other" && !(typeKinds.contains ctype)) then false else true
  else true

/-- The since lower bound of `filtered`
(`src/extension.js:371,375`, `src/webview/App.vue:174,178`):
`since ? new Date(since + "T00:00:00") : null`, then drop when
`commit.dateObj < sinceDate`.  `parseSinceDate` models the host date
parser; `none` is an `Invalid Date`, whose `<` comparison is NaN and thus
always false, so no commit is dropped. -/
def sincePass (parseSinceDate : String → Option Int) (since : String) (dateObj : Int) : Bool :=
  if since = "" then true
  else match parseSinceDate since with
    | none => true
    | some d => if dateObj < d then false else true

/-- The lazy capture of the regex `/\((.*?)\)/` after an opening paren:
the characters up to the nearest `)` with no intervening newline (`.`
does not match newlines). -/
def scopeGrab : List Char → Option (List Char)
  | [] => none
  | ')' :: _ => some []
  | '\n' :: _ => none
  | c :: rest => (scopeGrab rest).map (fun s => c :: s)

/-- The scan of the regex `/\((.*?)\)/`: the first `(` whose capture
succeeds wins; on failure scanning resumes after that `(`. -/
def scopeScan : List Char → Option (List Char)
  | [] => none
  | '(' :: rest =>
    match scopeGrab rest with
    | some s => some s
    | none => scopeScan rest
  | _ :: rest => scopeScan rest

/-- ASCII lower-casing, the effect of `toLowerCase()` on the strings this
code handles. -/
def lowerStr (s : String) : String := String.mk (s.data.map Char.toLower)

/-- Whether the first list is a leading segment of the second. -/
def leadsList : List Char → List Char → Bool
  | [], _ => true
  | _ :: _, [] => false
  | a :: as, b :: bs => a = b && leadsList as bs

/-- Models `String.prototype.includes`: the needle occurs contiguously in
the haystack (an empty needle always occurs). -/
def includesList (needle : List Char) : List Char → Bool
  | [] => leadsList needle []
  | c :: rest => leadsList needle (c :: rest) || includesList needle rest

/-- The search-term stage of `filtered` (`src/extension.js:381-388`,
`src/webview/App.vue:184-191`): an empty trimmed term passes everything,
otherwise case-insensitive substring match against the message, the hash,
and the parenthesised scope fragment. -/
def searchPass (search : String) (c : NCommit) : Bool :=
  let term := lowerStr (jsTrim search)
  if term = "" then true
  else
    let scope := match scopeScan c.message.data with
      | some s => String.mk s
      | none => ""
    includesList term.data (lowerStr c.message).data ||
    includesList term.data (lowerStr c.hash).data ||
    includesList term.data (lowerStr scope).data

/-- The whole filter predicate of `filtered`, in source order:
since bound, then type filter, then search term. -/
def commitPass (parseSinceDate : String → Option Int) (state : ViewState)
    (c : NCommit) : Bool :=
  sincePass parseSinceDate state.since c.dateObj &&
  typePass state.typeFilter c.type &&
  searchPass state.search c

/-- The item comparator
`(a, b) => sort === "desc" ? b.dateObj - a.dateObj : a.dateObj - b.dateObj`
as the relation "a may stay before b", i.e. comparator value ≤ 0.
`Array.prototype.sort` is stable, and `List.insertionSort` is the
matching stable sort. -/
def itemLE (sort : String) (a b : NCommit) : Bool :=
  if sort = "desc" then decide (b.dateObj ≤ a.dateObj) else decide (a.dateObj ≤ b.dateObj)

/-- Lexicographic character-list comparison: models the JS `<`/`>`
string comparison (code-unit order), which coincides with Lean's `String`
order on these keys. -/
def ltChars : List Char → List Char → Bool
  | [], [] => false
  | [], _ :: _ => true
  | _ :: _, [] => false
  | a :: as, b :: bs =>
    if a < b then true else if b < a then false else ltChars as bs

/-- JS string comparison `a < b`. -/
def jsLtStr (a b : String) : Bool := ltChars a.data b.data

/-- The group-key comparator
`(a, b) => sort === "desc" ? (a > b ? -1 : 1) : (a > b ? 1 : -1)` as the
relation "a may stay before b" (comparator value ≤ 0): `a > b` under
`desc`, `!(a > b)` under `asc`. -/
def keyLE (sort : String) (a b : String) : Bool :=
  if sort = "desc" then jsLtStr b a else !(jsLtStr b a)

/-- Models `filtered` (`src/extension.js:369-391`,
`src/webview/App.vue:172-194`): filter, then stable sort by timestamp in
the active direction. -/
def filteredList (parseSinceDate : String → Option Int) (state : ViewState)
    (commits : List NCommit) : List NCommit :=
  List.insertionSort (fun a b => itemLE state.sort a b = true)
    (commits.filter (commitPass parseSinceDate state))

/-- The group key of a commit: `commit.dateObj.toISOString().slice(0, 10)`. -/
def keyOf (c : NCommit) : String := utcDateKey c.dateObj

/-- Adding one key to the key list: a fresh key is appended, a seen key
changes nothing (`if (!map[key]) map[key] = []`). -/
def insertKey (ks : List String) (k : String) : List String :=
  if ks.contains k then ks else ks ++ [k]

/-- The keys of the day map in first-occurrence order (`Object.keys(map)`
preserves insertion order for these non-index string keys). -/
def groupKeys (l : List NCommit) : List String :=
  l.foldl (fun ks c => insertKey ks (keyOf c)) []

/-- One rendered day group. -/
structure DGroup where
  key : String
  label : String
  countLabel : String
  items : List NCommit
deriving DecidableEq, Repr

/-- The pluralized count label:
`${n} commit${n === 1 ? "" : "s"}`. -/
def countLabelOf (n : Nat) : String :=
  toString n ++ " commit" ++ (if n = 1 then "" else "s")

/-- Models `grouped` (`src/extension.js:393-409`,
`src/webview/App.vue:196-214`): bucket the filtered commits by UTC date
key, sort the keys by the active direction, and re-sort each bucket with
the item comparator.  `fmtLabel` stands for `formatDateLabel`, which
calls the host locale formatter `toLocaleDateString`. -/
def grouped (parseSinceDate : String → Option Int) (fmtLabel : String → String)
    (state : ViewState) (commits : List NCommit) : List DGroup :=
  let f := filteredList parseSinceDate state commits
  let keys := List.insertionSort (fun a b => keyLE state.sort a b = true) (groupKeys f)
  keys.map fun k =>
    let items := f.filter (fun c => decide (keyOf c = k))
    { key := k
      label := fmtLabel k
      countLabel := countLabelOf items.length
      items := List.insertionSort (fun a b => itemLE state.sort a b = true) items }

/-- Models `Array.prototype.join(sep)`. -/
def joinWith (sep : String) : List String → String
  | [] => ""
  | s :: rest =>
    match rest with
    | [] => s
    | _ :: _ => s ++ sep ++ joinWith sep rest

/-- The day-summary text built by `copyDay`
(`src/extension.js:445`, `src/webview/App.vue:253`):
one `- ${message};` line per item, joined with newlines. -/
def copyDayText (items : List NCommit) : String :=
  joinWith "\n" (items.map fun c => "- " ++ c.message ++ ";")

/-- The concrete commit used by the C10 witness. -/
def wCommitC10 : NCommit :=
  { author := "a", date := "d", hash := "h1", message := "feat: x",
    repoPath := "p", repoLabel := "l", type := "feat", dateObj := 0 }

/-- The concrete day group produced for `wCommitC10`. -/
def wGroupC10 : DGroup :=
  { key := "1970-01-01", label := "1970-01-01", countLabel := "1 commit",
    items := [wCommitC10] }

/-- A commit at 2024-01-02T04:30Z, which is 2024-01-01 local time at
UTC-5 (offset -300 minutes); used against claim C3. -/
def wCommitC3a : NCommit :=
  { author := "a", date := "d", hash := "h1", message := "m1",
    repoPath := "p", repoLabel := "l", type := "other", dateObj := 1704169800000 }

/-- A commit at 2024-01-02T20:00Z, which is also 2024-01-02 local time at
UTC-5; used against claim C3. -/
def wCommitC3b : NCommit :=
  { author := "a", date := "d", hash := "h2", message := "m2",
    repoPath := "p", repoLabel := "l", type := "other", dateObj := 1704225600000 }

/-- The concrete commit used by the C3 witness. -/
def wCommitC3c : NCommit :=
  { author := "a", date := "d", hash := "h3", message := "m3",
    repoPath := "p", repoLabel := "l", type := "other", dateObj := 3600000 }

/-- The concrete day group produced for `wCommitC3c`. -/
def wGroupC3 : DGroup :=
  { key := "1970-01-01", label := "1970-01-01", countLabel := "1 commit",
    items := [wCommitC3c] }

/-- A directory entry as seen by `fs.promises.readdir(...,
{ withFileTypes: true })`: its name and the results of its
`isDirectory()` and `isSymbolicLink()` methods. -/
structure FSEntry where
  name : String
  isDirectory : Bool
  isSymbolicLink : Bool
deriving DecidableEq, Repr

/-- The fixed skip set of `walkForRepos` (`src/extension.js:148`). -/
def skipDirs : List String :=
  [".git", "node_modules", "dist", "build", "out", ".next", ".turbo", ".cache"]

/-- The children enqueued from one directory listing
(`src/extension.js:173-178`): symbolic links, non-directories, and
skip-set names are never enqueued; the rest are pushed as
`path.join(current, entry.name)` (paths are modelled as component
lists). -/
def childrenToEnqueue (current : List String) (entries : List FSEntry) :
    List (List String) :=
  (entries.filter (fun e =>
      !e.isSymbolicLink && e.isDirectory && !(skipDirs.contains e.name))).map
    (fun e => current ++ [e.name])

/-- The worklist loop of `walkForRepos` (`src/extension.js:150-179`),
fuelled for termination.  The JS array queue with push/pop at the end is
stored reversed, so pop is head and a batch push prepends the reversed
batch.  `fs` models `readdir`: `none` is a thrown error, skipped with
`continue`; a directory is recorded when any entry is named `.git`. -/
def walkLoop (fs : List String → Option (List FSEntry)) :
    Nat → List (List String) → List (List String) → List (List String)
  | 0, _, repos => repos
  | _ + 1, [], repos => repos
  | n + 1, current :: stack, repos =>
    match fs current with
    | none => walkLoop fs n stack repos
    | some entries =>
      let repos2 :=
        if entries.any (fun e => e.name == ".git") then repos ++ [current] else repos
      walkLoop fs n ((childrenToEnqueue current entries).reverse ++ stack) repos2

/-- Models `walkForRepos(startPath, repos)` run against filesystem `fs`
with enough fuel. -/
def walkForRepos (fs : List String → Option (List FSEntry)) (fuel : Nat)
    (startPath : List String) : List (List String) :=
  walkLoop fs fuel [startPath] []

/-- The tiny filesystem used by the C8 witness: a root repository with a
nested repository in subdirectory `a`. -/
def wFS : List String → Option (List FSEntry) :=
  fun p =>
    if p = ["root"] then
      some [{ name := ".git", isDirectory := true, isSymbolicLink := false },
            { name := "a", isDirectory := true, isSymbolicLink := false }]
    else if p = ["root", "a"] then
      some [{ name := ".git", isDirectory := true, isSymbolicLink := false }]
    else none

/-- First example commit on 2024-01-01 (claim C6's grouping example). -/
def wCommitC6a : NCommit :=
  { author := "a", date := "d", hash := "h1", message := "m1",
    repoPath := "p", repoLabel := "l", type := "other", dateObj := 1704067200000 }

/-- Second example commit on 2024-01-01 (claim C6's grouping example). -/
def wCommitC6b : NCommit :=
  { author := "a", date := "d", hash := "h2", message := "m2",
    repoPath := "p", repoLabel := "l", type := "other", dateObj := 1704067201000 }

/-- Example commit on 2024-01-02 (claim C6's grouping example). -/
def wCommitC6c : NCommit :=
  { author := "a", date := "d", hash := "h3", message := "m3",
    repoPath := "p", repoLabel := "l", type := "other", dateObj := 1704153600000 }

/-! ### Helper lemmas -/

/-- A list free of the separator splits to itself. -/
theorem splitOnChar_of_not_mem {sep : Char} : ∀ {cs : List Char}, sep ∉ cs →
    splitOnChar sep cs = [cs]
  | [], _ => rfl
  | c :: rest, h => by
    have hc : c ≠ sep := fun he => h (he ▸ List.mem_cons_self c rest)
    have hrest : sep ∉ rest := fun hm => h (List.mem_cons_of_mem c hm)
    simp [splitOnChar, hc, splitOnChar_of_not_mem hrest]

/-- Splitting distributes over a separator placed after a clean chunk. -/
theorem splitOnChar_append {sep : Char} : ∀ {l : List Char}, sep ∉ l →
    ∀ rest, splitOnChar sep (l ++ sep :: rest) = l :: splitOnChar sep rest
  | [], _, rest => by simp [splitOnChar]
  | c :: l, h, rest => by
    have hc : c ≠ sep := fun he => h (he ▸ List.mem_cons_self c l)
    have hl : sep ∉ l := fun hm => h (List.mem_cons_of_mem c hm)
    simp [splitOnChar, hc, splitOnChar_append hl rest]

/-- Splitting a string built as `chunk ++ sep ++ rest` with a clean chunk
yields the chunk followed by the split of the rest. -/
theorem jsSplit_append {sep : Char} {l : String} (h : sep ∉ l.data) (rest : String) :
    jsSplit sep (l ++ String.mk [sep] ++ rest) = l :: jsSplit sep rest := by
  have hdata : (l ++ String.mk [sep] ++ rest).data = l.data ++ sep :: rest.data := by
    simp [String.data_append]
  simp only [jsSplit, hdata, splitOnChar_append h, List.map_cons]

/-- The split of a four-field record line whose fields are free of the
field separator. -/
theorem splitOnChar_four {h d m a : List Char}
    (h1 : '\x1f' ∉ h) (h2 : '\x1f' ∉ d) (h3 : '\x1f' ∉ m) (h4 : '\x1f' ∉ a) :
    splitOnChar '\x1f' (h ++ '\x1f' :: (d ++ '\x1f' :: (m ++ '\x1f' :: a)))
      = [h, d, m, a] := by
  rw [splitOnChar_append h1, splitOnChar_append h2, splitOnChar_append h3,
    splitOnChar_of_not_mem h4]

/-- Membership in the key accumulator. -/
theorem mem_insertKey {ks : List String} {k q : String} :
    q ∈ insertKey ks k ↔ q ∈ ks ∨ q = k := by
  unfold insertKey
  split
  · rename_i h
    have hmem := List.mem_of_elem_eq_true h
    constructor
    · exact Or.inl
    · rintro (hq | rfl)
      · exact hq
      · exact hmem
  · simp

/-- Membership in the folded key list. -/
theorem mem_groupKeys_foldl :
    ∀ (l : List NCommit) (acc : List String) (q : String),
      (q ∈ l.foldl (fun ks c => insertKey ks (keyOf c)) acc ↔
        q ∈ acc ∨ ∃ c ∈ l, keyOf c = q)
  | [], acc, q => by simp
  | c :: l, acc, q => by
    simp only [List.foldl_cons, mem_groupKeys_foldl l, mem_insertKey,
      List.exists_mem_cons_iff]
    constructor
    · rintro ((h | h) | h)
      · exact Or.inl h
      · exact Or.inr (Or.inl h.symm)
      · exact Or.inr (Or.inr h)
    · rintro (h | h | h)
      · exact Or.inl (Or.inl h)
      · exact Or.inl (Or.inr h.symm)
      · exact Or.inr h

/-- A key occurs in `groupKeys l` exactly when some commit of `l` has it. -/
theorem mem_groupKeys {l : List NCommit} {q : String} :
    q ∈ groupKeys l ↔ ∃ c ∈ l, keyOf c = q := by
  simpa using mem_groupKeys_foldl l [] q

/-- Inserting a key preserves distinctness. -/
theorem nodup_insertKey {ks : List String} {k : String} (h : ks.Nodup) :
    (insertKey ks k).Nodup := by
  unfold insertKey
  split
  · exact h
  · rename_i hc
    have hnm : k ∉ ks := fun hm => hc (List.elem_eq_true_of_mem hm)
    simp [List.nodup_append, h, hnm]

/-- The folded key list is distinct. -/
theorem nodup_groupKeys_foldl :
    ∀ (l : List NCommit) (acc : List String), acc.Nodup →
      (l.foldl (fun ks c => insertKey ks (keyOf c)) acc).Nodup
  | [], acc, h => h
  | c :: l, acc, h => nodup_groupKeys_foldl l _ (nodup_insertKey h)

/-- The key list of the day map has no duplicates. -/
theorem nodup_groupKeys (l : List NCommit) : (groupKeys l).Nodup :=
  nodup_groupKeys_foldl l [] List.nodup_nil

/-- Splitting the newline-join of non-empty, newline-free lines recovers
exactly the lines. -/
theorem splitOnChar_joinWith :
    ∀ {lines : List String}, lines ≠ [] → (∀ s ∈ lines, '\n' ∉ s.data) →
      splitOnChar '\n' (joinWith "\n" lines).data = lines.map String.data
  | [], h, _ => absurd rfl h
  | [s], _, hm => by
    simp [joinWith, splitOnChar_of_not_mem (hm s (by simp))]
  | s :: t :: rest, _, hm => by
    have hdata : (joinWith "\n" (s :: t :: rest)).data
        = s.data ++ '\n' :: (joinWith "\n" (t :: rest)).data := by
      simp [joinWith, String.data_append]
    rw [hdata, splitOnChar_append (hm s (by simp))]
    rw [splitOnChar_joinWith (by simp) (fun x hx => hm x (by simp [hx]))]
    simp

/-- Every group produced by `grouped` has at least one item. -/
theorem grouped_items_ne_nil {ps : String → Option Int} {fmt : String → String}
    {state : ViewState} {commits : List NCommit} {g : DGroup}
    (hg : g ∈ grouped ps fmt state commits) : g.items ≠ [] := by
  simp only [grouped] at hg
  rcases List.mem_map.mp hg with ⟨k, hk, rfl⟩
  rw [List.mem_insertionSort] at hk
  rcases mem_groupKeys.mp hk with ⟨c, hc, hkey⟩
  intro hnil
  simp only at hnil
  have hmemf : c ∈ (filteredList ps state commits).filter
      (fun x => decide (keyOf x = k)) :=
    List.mem_filter.mpr ⟨hc, by simp [hkey]⟩
  have hperm := List.perm_insertionSort
    (fun a b => itemLE state.sort a b = true)
    ((filteredList ps state commits).filter (fun x => decide (keyOf x = k)))
  rw [hnil] at hperm
  rw [← hperm.mem_iff] at hmemf
  exact absurd hmemf (List.not_mem_nil c)


set_option maxRecDepth 8192 in
/-- Two-digit rendering is injective below 100. -/
theorem pad2_inj : ∀ a : Nat, a < 100 → ∀ b : Nat, b < 100 →
    pad2 a = pad2 b → a = b := by
  decide

/-- Four-digit rendering is injective below 10000. -/
theorem pad4_inj {a b : Nat} (ha : a < 10000) (hb : b < 10000)
    (h : pad4 a = pad4 b) : a = b := by
  unfold pad4 at h
  have hlen : (pad2 (a / 100)).length = (pad2 (b / 100)).length := rfl
  obtain ⟨hhi, hlo⟩ := List.append_inj h hlen
  have h1 := pad2_inj (a / 100) (by omega) (b / 100) (by omega) hhi
  have h2 := pad2_inj (a % 100) (by omega) (b % 100) (by omega) hlo
  omega

/-- The raw characters of a `utcDateKey`. -/
theorem utcDateKey_data (ms : Int) :
    (utcDateKey ms).data
      = pad4 (civilFromDays (utcDayNumber ms)).1.toNat
        ++ ('-' :: pad2 (civilFromDays (utcDayNumber ms)).2.1
            ++ '-' :: pad2 (civilFromDays (utcDayNumber ms)).2.2) := rfl

/-- Within the four-digit year range, two instants render to the same
date key exactly when their UTC civil dates coincide. -/
theorem utcDateKey_inj {t1 t2 : Int}
    (hy1a : 0 ≤ (civilFromDays (utcDayNumber t1)).1)
    (hy1b : (civilFromDays (utcDayNumber t1)).1 < 10000)
    (hm1 : (civilFromDays (utcDayNumber t1)).2.1 < 100)
    (hd1 : (civilFromDays (utcDayNumber t1)).2.2 < 100)
    (hy2a : 0 ≤ (civilFromDays (utcDayNumber t2)).1)
    (hy2b : (civilFromDays (utcDayNumber t2)).1 < 10000)
    (hm2 : (civilFromDays (utcDayNumber t2)).2.1 < 100)
    (hd2 : (civilFromDays (utcDayNumber t2)).2.2 < 100) :
    (utcDateKey t1 = utcDateKey t2 ↔
      civilFromDays (utcDayNumber t1) = civilFromDays (utcDayNumber t2)) := by
  constructor
  · intro h
    have hdt := congrArg String.data h
    rw [utcDateKey_data, utcDateKey_data] at hdt
    obtain ⟨hy, hrest⟩ := List.append_inj hdt rfl
    obtain ⟨hmon, hday⟩ := List.append_inj hrest rfl
    rw [List.cons.injEq] at hmon hday
    have hyear := pad4_inj (by omega) (by omega) hy
    have hmv := pad2_inj _ hm1 _ hm2 hmon.2
    have hdv := pad2_inj _ hd1 _ hd2 hday.2
    rw [Prod.ext_iff, Prod.ext_iff]
    exact ⟨by omega, hmv, hdv⟩
  · intro h
    unfold utcDateKey
    rw [h]

/-- Each member of a displayed group comes from the filtered list and
carries the group's key. -/
theorem grouped_mem_items {ps : String → Option Int} {fmt : String → String}
    {state : ViewState} {commits : List NCommit} {g : DGroup} {c : NCommit}
    (hg : g ∈ grouped ps fmt state commits) (hc : c ∈ g.items) :
    c ∈ filteredList ps state commits ∧ keyOf c = g.key := by
  simp only [grouped] at hg
  rcases List.mem_map.mp hg with ⟨k, hk, rfl⟩
  simp only at hc
  rw [List.mem_insertionSort] at hc
  have hf := List.mem_filter.mp hc
  refine ⟨hf.1, ?_⟩
  simpa using hf.2

/-- The item relation is total for either direction. -/
theorem itemLE_total (s : String) :
    ∀ a b, itemLE s a b = true ∨ itemLE s b a = true := by
  intro a b
  unfold itemLE
  split <;> simp <;> omega

/-- The item relation is transitive for either direction. -/
theorem itemLE_trans (s : String) :
    ∀ a b c, itemLE s a b = true → itemLE s b c = true → itemLE s a c = true := by
  intro a b c
  unfold itemLE
  split <;> simp <;> omega

/-- Stable sorting with the item comparator yields a list pairwise
related by it. -/
theorem pairwise_insertionSort_itemLE (s : String) (l : List NCommit) :
    (List.insertionSort (fun a b => itemLE s a b = true) l).Pairwise
      (fun a b => itemLE s a b = true) := by
  letI : IsTotal NCommit (fun a b => itemLE s a b = true) := ⟨itemLE_total s⟩
  letI : IsTrans NCommit (fun a b => itemLE s a b = true) := ⟨itemLE_trans s⟩
  exact List.sorted_insertionSort _ l

/-- Inserting a fresh element into a pairwise-related list keeps it
pairwise related, given transitivity and totality on distinct elements. -/
theorem pairwise_orderedInsert_strict {α : Type} {r : α → α → Prop} [DecidableRel r]
    (htrans : ∀ a b c, r a b → r b c → r a c)
    (htotal : ∀ a b, a ≠ b → r a b ∨ r b a) :
    ∀ {l : List α} {a : α}, l.Pairwise r → a ∉ l →
      (l.orderedInsert r a).Pairwise r
  | [], a, _, _ => by simp
  | b :: t, a, hl, ha => by
    rw [List.orderedInsert]
    rcases List.pairwise_cons.mp hl with ⟨hbt, hpt⟩
    by_cases hr : r a b
    · rw [if_pos hr]
      refine List.pairwise_cons.mpr ⟨?_, hl⟩
      intro x hx
      rcases List.mem_cons.mp hx with rfl | hx
      · exact hr
      · exact htrans a b x hr (hbt x hx)
    · rw [if_neg hr]
      have hne : a ≠ b := fun he => ha (he ▸ List.mem_cons_self b t)
      have hat : a ∉ t := fun hm => ha (List.mem_cons_of_mem b hm)
      refine List.pairwise_cons.mpr ⟨?_, pairwise_orderedInsert_strict htrans htotal hpt hat⟩
      intro x hx
      rcases (List.mem_orderedInsert r).mp hx with he | hx
      · rw [he]
        exact (htotal a b hne).resolve_left hr
      · exact hbt x hx

/-- Insertion sort of a duplicate-free list is pairwise related even for
a strict relation, given transitivity and totality on distinct
elements. -/
theorem pairwise_insertionSort_strict {α : Type} {r : α → α → Prop} [DecidableRel r]
    (htrans : ∀ a b c, r a b → r b c → r a c)
    (htotal : ∀ a b, a ≠ b → r a b ∨ r b a) :
    ∀ {l : List α}, l.Nodup → (List.insertionSort r l).Pairwise r
  | [], _ => by simp
  | a :: t, hl => by
    rw [List.insertionSort]
    rcases List.pairwise_cons.mp hl with ⟨hat, hnt⟩
    have hmem : a ∉ List.insertionSort r t := by
      rw [List.mem_insertionSort]
      intro hm
      exact hat a hm rfl
    exact pairwise_orderedInsert_strict htrans htotal
      (pairwise_insertionSort_strict htrans htotal hnt) hmem

/-- The keys of the rendered groups are the sorted day-map keys. -/
theorem grouped_map_key (ps : String → Option Int) (fmt : String → String)
    (state : ViewState) (commits : List NCommit) :
    (grouped ps fmt state commits).map DGroup.key
      = List.insertionSort (fun a b => keyLE state.sort a b = true)
          (groupKeys (filteredList ps state commits)) := by
  simp only [grouped, List.map_map]
  exact List.map_id _

/-- The key list of the rendered groups, stated for a literal view
state. -/
theorem grouped_map_key_mk (ps : String → Option Int) (fmt : String → String)
    (commits : List NCommit) (search tf sincev sortv : String) :
    (grouped ps fmt ⟨search, tf, sincev, sortv⟩ commits).map DGroup.key
      = List.insertionSort (fun a b => keyLE sortv a b = true)
          (groupKeys (filteredList ps ⟨search, tf, sincev, sortv⟩ commits)) :=
  grouped_map_key ps fmt ⟨search, tf, sincev, sortv⟩ commits

/-- The list comparison agrees with the lexicographic order relation. -/
theorem ltChars_iff : ∀ as bs : List Char, ltChars as bs = true ↔ as < bs
  | [], [] => by
    simp only [ltChars]
    constructor
    · intro h
      exact absurd h (by simp)
    · intro h
      cases h
  | [], b :: bs => by
    simp only [ltChars]
    exact ⟨fun _ => List.Lex.nil, fun _ => trivial⟩
  | a :: as, [] => by
    simp only [ltChars]
    constructor
    · intro h
      exact absurd h (by simp)
    · intro h
      cases h
  | a :: as, b :: bs => by
    simp only [ltChars]
    by_cases hab : a < b
    · simp only [if_pos hab]
      exact ⟨fun _ => List.Lex.rel hab, fun _ => trivial⟩
    · simp only [if_neg hab]
      by_cases hba : b < a
      · simp only [if_pos hba]
        constructor
        · intro h
          exact absurd h (by simp)
        · intro h
          cases h with
          | cons _ => exact absurd hba (lt_irrefl _)
          | rel hr => exact absurd hr hab
      · have heq : a = b := le_antisymm (le_of_not_lt hba) (le_of_not_lt hab)
        subst heq
        simp only [if_neg hba, ltChars_iff as bs]
        constructor
        · intro h
          exact List.Lex.cons h
        · intro h
          cases h with
          | cons h3 => exact h3
          | rel hr => exact absurd hr hab

/-- The string comparison agrees with the library string order. -/
theorem jsLtStr_iff (a b : String) : jsLtStr a b = true ↔ a < b :=
  (ltChars_iff a.data b.data).trans String.lt_iff_toList_lt.symm

/-- Sorting distinct keys with the descending comparator yields a
strictly descending list. -/
theorem keys_sorted_desc {l : List String} (h : l.Nodup) :
    (List.insertionSort (fun a b => keyLE "desc" a b = true) l).Pairwise
      (fun a b : String => b < a) := by
  have hiff : ∀ a b : String, (keyLE "desc" a b = true) ↔ b < a := by
    intro a b
    simp [keyLE, jsLtStr_iff]
  have hp := pairwise_insertionSort_strict
    (r := fun a b : String => keyLE "desc" a b = true)
    (fun a b c hab hbc =>
      (hiff a c).mpr (lt_trans ((hiff b c).mp hbc) ((hiff a b).mp hab)))
    (fun a b hne => by
      rcases lt_or_gt_of_ne hne with hlt | hgt
      · exact Or.inr ((hiff b a).mpr hlt)
      · exact Or.inl ((hiff a b).mpr hgt))
    h
  exact hp.imp (fun hab => (hiff _ _).mp hab)

/-- The ascending comparator relation is exactly `≤`. -/
theorem keyLE_asc_iff (a b : String) : (keyLE "asc" a b = true) ↔ a ≤ b := by
  have hval : keyLE "asc" a b = !(jsLtStr b a) := by
    simp [keyLE]
  rw [hval]
  constructor
  · intro hx
    refine le_of_not_lt fun hlt => ?_
    rw [(jsLtStr_iff b a).mpr hlt] at hx
    simp at hx
  · intro hle
    have hff : jsLtStr b a = false := by
      by_contra hc
      rw [Bool.not_eq_false] at hc
      exact absurd ((jsLtStr_iff b a).mp hc) (not_lt.mpr hle)
    rw [hff]
    rfl

/-- Sorting distinct keys with the ascending comparator yields a
strictly ascending list. -/
theorem keys_sorted_asc {l : List String} (h : l.Nodup) :
    (List.insertionSort (fun a b => keyLE "asc" a b = true) l).Pairwise
      (fun a b : String => a < b) := by
  have hle : (List.insertionSort (fun a b => keyLE "asc" a b = true) l).Pairwise
      (fun a b => keyLE "asc" a b = true) := by
    letI : IsTotal String (fun a b => keyLE "asc" a b = true) :=
      ⟨fun a b =>
        (le_total a b).imp (keyLE_asc_iff a b).mpr (keyLE_asc_iff b a).mpr⟩
    letI : IsTrans String (fun a b => keyLE "asc" a b = true) :=
      ⟨fun a b c hab hbc =>
        (keyLE_asc_iff a c).mpr
          (le_trans ((keyLE_asc_iff a b).mp hab) ((keyLE_asc_iff b c).mp hbc))⟩
    exact List.sorted_insertionSort _ l
  have hnd : (List.insertionSort (fun a b => keyLE "asc" a b = true) l).Nodup :=
    (List.perm_insertionSort _ l).nodup_iff.mpr h
  exact (hle.and hnd).imp (fun hab =>
    lt_of_le_of_ne ((keyLE_asc_iff _ _).mp hab.1) hab.2)

/-- Claim C3, counterexample: the commits at 2024-01-02T04:30Z and
2024-01-02T20:00Z land in the same day group (key "2024-01-02"), yet for
a host at UTC-5 their local calendar days differ (2024-01-01 vs
2024-01-02) — so the group key is not the local calendar date. -/
theorem C3_counterexample :
    (grouped (fun _ => none) (fun k => k)
        { search := "", typeFilter := "all", since := "", sort := "desc" }
        [wCommitC3a, wCommitC3b]).map (fun g => (g.key, g.items.map NCommit.hash))
      = [("2024-01-02", ["h2", "h1"])] ∧
    localDayNumber (-300) wCommitC3a.dateObj ≠ localDayNumber (-300) wCommitC3b.dateObj := by
  exact ⟨by decide, by decide⟩

/-- Claim C3 (amended): the day group a visible commit belongs to is
keyed by the UTC calendar date of its timestamp (the ISO date rendered by
`toISOString`), not the local date; within the four-digit year range two
timestamps get the same key exactly when their UTC civil dates
coincide. -/
theorem C3_theorem :
    (∀ (ps : String → Option Int) (fmt : String → String) (state : ViewState)
        (commits : List NCommit) (g : DGroup) (c : NCommit),
      g ∈ grouped ps fmt state commits → c ∈ g.items →
      g.key = utcDateKey c.dateObj) ∧
    (∀ t1 t2 : Int,
      0 ≤ (civilFromDays (utcDayNumber t1)).1 →
      (civilFromDays (utcDayNumber t1)).1 < 10000 →
      (civilFromDays (utcDayNumber t1)).2.1 < 100 →
      (civilFromDays (utcDayNumber t1)).2.2 < 100 →
      0 ≤ (civilFromDays (utcDayNumber t2)).1 →
      (civilFromDays (utcDayNumber t2)).1 < 10000 →
      (civilFromDays (utcDayNumber t2)).2.1 < 100 →
      (civilFromDays (utcDayNumber t2)).2.2 < 100 →
      (utcDateKey t1 = utcDateKey t2 ↔
        civilFromDays (utcDayNumber t1) = civilFromDays (utcDayNumber t2))) := by
  constructor
  · intro ps fmt state commits g c hg hc
    exact ((grouped_mem_items hg hc).2).symm
  · intro t1 t2 h1 h2 h3 h4 h5 h6 h7 h8
    exact utcDateKey_inj h1 h2 h3 h4 h5 h6 h7 h8

/-- Witness for C3: the single group of a one-commit view is keyed by the
commit's UTC date, and the key-equality criterion at two instants one
hour apart on 1970-01-01. -/
theorem C3_witness :
    wGroupC3.key = utcDateKey wCommitC3c.dateObj ∧
    (utcDateKey 0 = utcDateKey 3600000 ↔
      civilFromDays (utcDayNumber 0) = civilFromDays (utcDayNumber 3600000)) :=
  ⟨C3_theorem.1 (fun _ => none) (fun k => k)
      { search := "", typeFilter := "all", since := "", sort := "desc" }
      [wCommitC3c] wGroupC3 wCommitC3c (by decide) (by decide),
   C3_theorem.2 0 3600000 (by decide) (by decide) (by decide) (by decide)
      (by decide) (by decide) (by decide) (by decide)⟩

/-- Claim C1, counterexample: the classifier maps `"Merge branch 'x'"` to
`"other"`, not `"merge"` as the claim states — no leading run of
alphabetic characters is immediately followed by `(` or `:` ("Merge" is
followed by a space, and the message contains neither `(` nor `:`). -/
theorem C1_counterexample :
    classify "Merge branch \x27x\x27" = "other" ∧
    classify "Merge branch \x27x\x27" ≠ "merge" := by
  exact ⟨by decide, by decide⟩

/-- Claim C1 (amended): the classifier maps `"feat(ui): add button"` to
`"feat"`, `"Merge branch 'x'"` to `"other"` (its leading alphabetic run
is followed by a space, not `(` or `:`), and `"bump deps"` to `"other"`. -/
theorem C1_theorem :
    classify "feat(ui): add button" = "feat" ∧
    classify "Merge branch \x27x\x27" = "other" ∧
    classify "bump deps" = "other" := by
  exact ⟨by decide, by decide, by decide⟩

/-- Claim C2, counterexample: the record `"abc"` splits into one field
(fewer than four), yet it is not dropped — the parse of `"abc\x1e"`
contributes one commit, not zero. -/
theorem C2_counterexample :
    (jsSplit '\x1f' "abc").length < 4 ∧
    (parseRecords "FB" "p" "l" "abc\x1e").length = 1 := by
  exact ⟨by decide, by decide⟩

/-- Claim C2 (amended): a record with fewer than four fields is NOT
dropped: it still contributes exactly one commit (whose missing trailing
fields are absent and whose author falls back to the effective author),
and it does not prevent subsequent records in the same output from being
parsed. -/
theorem C2_theorem (author p lbl m rest : String)
    (hm : '\x1e' ∉ m.data) (hne : m ≠ "")
    (hfields : (jsSplit '\x1f' m).length < 4) :
    parseRecords author p lbl (m ++ "\x1e" ++ rest)
        = parseLine author p lbl m :: parseRecords author p lbl rest ∧
    (parseLine author p lbl m).author = author := by
  constructor
  · simp only [parseRecords, jsSplit]
    have hdata : (m ++ "\x1e" ++ rest).data = m.data ++ '\x1e' :: rest.data := by
      simp [String.data_append]
    rw [hdata, splitOnChar_append hm]
    simp only [List.map_cons, List.filter_cons]
    simp [hne]
  · have h3 : (jsSplit '\x1f' m)[3]? = none :=
      List.getElem?_eq_none (by omega)
    simp only [parseLine, h3]

/-- Claim C4, counterexample: parsing the synthetic record built from
hash `"h"`, date `"d"`, message `"a|b:c"`, author `""` (all free of the
delimiters) does not reproduce the empty author field: the commit's
author is the effective-author fallback `"Alice"`. -/
theorem C4_counterexample :
    (parseRecords "Alice" "p" "lbl" "h\x1fd\x1fa|b:c\x1f\x1e").map XCommit.author
      = ["Alice"] ∧ ("Alice" : String) ≠ "" := by
  exact ⟨by decide, by decide⟩

/-- Claim C4 (amended): for all four field strings free of `\x1f` and
`\x1e`, with a non-empty author field (an empty one is replaced by the
effective-author fallback), parsing `{hash}\x1f{date}\x1f{message}\x1f
{author}\x1e` with the extractor's record parser reproduces exactly the
four original field values — in particular a message containing literal
`|` and `:` characters. -/
theorem C4_theorem (hsh d m a author p lbl : String)
    (h1 : '\x1f' ∉ hsh.data) (h2 : '\x1f' ∉ d.data)
    (h3 : '\x1f' ∉ m.data) (h4 : '\x1f' ∉ a.data)
    (h5 : '\x1e' ∉ hsh.data) (h6 : '\x1e' ∉ d.data)
    (h7 : '\x1e' ∉ m.data) (h8 : '\x1e' ∉ a.data) (ha : a ≠ "") :
    parseRecords author p lbl (hsh ++ "\x1f" ++ d ++ "\x1f" ++ m ++ "\x1f" ++ a ++ "\x1e")
      = [{ author := a, date := some d, hash := hsh, message := some m,
           repoPath := p, repoLabel := lbl }] := by
  have hlined :
      (hsh ++ "\x1f" ++ d ++ "\x1f" ++ m ++ "\x1f" ++ a).data
        = hsh.data ++ '\x1f' :: (d.data ++ '\x1f' :: (m.data ++ '\x1f' :: a.data)) := by
    simp [String.data_append]
  have hrawd :
      (hsh ++ "\x1f" ++ d ++ "\x1f" ++ m ++ "\x1f" ++ a ++ "\x1e").data
        = (hsh ++ "\x1f" ++ d ++ "\x1f" ++ m ++ "\x1f" ++ a).data ++ '\x1e' :: ([] : List Char) := by
    simp [String.data_append]
  have hlinene : (hsh ++ "\x1f" ++ d ++ "\x1f" ++ m ++ "\x1f" ++ a) ≠ "" := by
    intro hcon
    have : (hsh ++ "\x1f" ++ d ++ "\x1f" ++ m ++ "\x1f" ++ a).data = [] := by
      rw [hcon]
    rw [hlined] at this
    simp at this
  have hlinemem : '\x1e' ∉ (hsh ++ "\x1f" ++ d ++ "\x1f" ++ m ++ "\x1f" ++ a).data := by
    rw [hlined]
    intro hmem
    simp only [List.mem_append, List.mem_cons] at hmem
    rcases hmem with h | h | h | h | h | h | h
    · exact h5 h
    · exact absurd h (by decide)
    · exact h6 h
    · exact absurd h (by decide)
    · exact h7 h
    · exact absurd h (by decide)
    · exact h8 h
  have hfields :
      jsSplit '\x1f' (hsh ++ "\x1f" ++ d ++ "\x1f" ++ m ++ "\x1f" ++ a)
        = [hsh, d, m, a] := by
    simp only [jsSplit, hlined, splitOnChar_four h1 h2 h3 h4, List.map_cons, List.map_nil]
  have hsplitraw :
      jsSplit '\x1e' (hsh ++ "\x1f" ++ d ++ "\x1f" ++ m ++ "\x1f" ++ a ++ "\x1e")
        = [hsh ++ "\x1f" ++ d ++ "\x1f" ++ m ++ "\x1f" ++ a, ""] := by
    simp only [jsSplit, hrawd, splitOnChar_append hlinemem]
    rfl
  simp only [parseRecords, hsplitraw]
  simp only [List.filter_cons, List.filter_nil]
  simp only [show (decide ¬(hsh ++ "\x1f" ++ d ++ "\x1f" ++ m ++ "\x1f" ++ a = "")) = true by
      simp [hlinene],
    show (decide ¬("" : String) = "") = false by simp]
  simp only [if_true, if_false, List.map_cons, List.map_nil]
  simp [parseLine, hfields, ha]

/-- Claim C5 (confirmed): extraction is resilient per repository — if the
log query for one repository fails or returns (whitespace-)empty output,
that repository contributes zero commits and every other repository's
commits are returned in full, unchanged. -/
theorem C5_theorem (repos1 repos2 : List String) (bad : String)
    (authorSetting : Option String) (cfg gitLog : String → Option String)
    (lbl : String → String)
    (hbad : jsTrim ((gitLog bad).getD "") = "") :
    fetchCommits (repos1 ++ bad :: repos2) authorSetting cfg gitLog lbl
      = fetchCommits repos1 authorSetting cfg gitLog lbl
        ++ fetchCommits repos2 authorSetting cfg gitLog lbl := by
  simp only [fetchCommits, List.flatMap_append, List.flatMap_cons, hbad]
  simp

/-- Witness for C2: the amended theorem applied to the malformed record
`"abc"` followed by an empty remainder. -/
theorem C2_witness :
    parseRecords "FB" "p" "l" ("abc" ++ "\x1e" ++ "")
        = parseLine "FB" "p" "l" "abc" :: parseRecords "FB" "p" "l" "" ∧
    (parseLine "FB" "p" "l" "abc").author = "FB" :=
  C2_theorem "FB" "p" "l" "abc" "" (by decide) (by decide) (by decide)

/-- Witness for C4: the amended round-trip at hash `"h"`, date `"2024"`,
message `"a|b:c"`, author `"Ann"`. -/
theorem C4_witness :
    parseRecords "Alice" "p" "lbl"
        ("h" ++ "\x1f" ++ "2024" ++ "\x1f" ++ "a|b:c" ++ "\x1f" ++ "Ann" ++ "\x1e")
      = [{ author := "Ann", date := some "2024", hash := "h", message := some "a|b:c",
           repoPath := "p", repoLabel := "lbl" }] :=
  C4_theorem "h" "2024" "a|b:c" "Ann" "Alice" "p" "lbl"
    (by decide) (by decide) (by decide) (by decide)
    (by decide) (by decide) (by decide) (by decide) (by decide)

/-- Witness for C5: one failing repository between two succeeding ones. -/
theorem C5_witness :
    fetchCommits (["r1"] ++ "bad" :: ["r2"]) none (fun _ => some "cfg")
        (fun q => if q = "bad" then none else some "h\x1fd\x1fm\x1fa\x1e") (fun q => q)
      = fetchCommits ["r1"] none (fun _ => some "cfg")
          (fun q => if q = "bad" then none else some "h\x1fd\x1fm\x1fa\x1e") (fun q => q)
        ++ fetchCommits ["r2"] none (fun _ => some "cfg")
            (fun q => if q = "bad" then none else some "h\x1fd\x1fm\x1fa\x1e") (fun q => q) :=
  C5_theorem ["r1"] ["r2"] "bad" none (fun _ => some "cfg")
    (fun q => if q = "bad" then none else some "h\x1fd\x1fm\x1fa\x1e") (fun q => q)
    (by decide)

/-- Claim C7 (confirmed): with `typeFilter = "other"` the type filter
keeps a commit iff its classified tag is not in the fixed vocabulary (a
tag equal to `"other"` or any unrecognized word passes); with
`typeFilter = "all"` nothing is dropped; with any other filter value the
commit is kept iff its tag equals that value. -/
theorem C7_theorem (msg tf : String) :
    (typePass "other" (classify msg) = true ↔ classify msg ∉ typeKinds) ∧
    typePass "all" (classify msg) = true ∧
    (tf ≠ "all" → tf ≠ "other" →
      (typePass tf (classify msg) = true ↔ classify msg = tf)) := by
  generalize classify msg = t
  refine ⟨?_, ?_, ?_⟩
  · by_cases ht : t = "other"
    · subst ht
      simp [typePass, typeKinds]
    · simp [typePass, ht, typeKinds]
  · simp [typePass]
  · intro hall hother
    by_cases ht : t = tf
    · subst ht
      simp [typePass]
    · simp [typePass, hall, hother, ht, Ne.symm ht]

/-- Witness for C7: the specific-filter clause at message `"fix: y"` and
filter `"fix"`. -/
theorem C7_witness :
    typePass "fix" (classify "fix: y") = true ↔ classify "fix: y" = "fix" := by
  have h := C7_theorem "fix: y" "fix"
  exact h.2.2 (by decide) (by decide)

/-- Claim C9 (confirmed): a non-empty but unparseable `since` value
(`new Date` yields an Invalid Date, whose `<` comparison is always false)
applies no lower time bound: the visible commits are exactly those with
an empty `since`, all other filters unchanged. -/
theorem C9_theorem (parseSinceDate : String → Option Int) (state : ViewState)
    (commits : List NCommit) (s : String)
    (hne : s ≠ "") (hbad : parseSinceDate s = none) :
    filteredList parseSinceDate { state with since := s } commits
      = filteredList parseSinceDate { state with since := "" } commits := by
  unfold filteredList
  congr 1
  apply List.filter_congr
  intro c _
  simp [commitPass, sincePass, hne, hbad]

/-- Witness for C9: the malformed since value `"not-a-date"` against a
host parser that rejects it. -/
theorem C9_witness :
    filteredList (fun _ => none)
        { search := "", typeFilter := "all", since := "not-a-date", sort := "desc" }
        [{ author := "a", date := "d", hash := "h", message := "m",
           repoPath := "p", repoLabel := "l", type := "other", dateObj := 5 }]
      = filteredList (fun _ => none)
          { search := "", typeFilter := "all", since := "", sort := "desc" }
          [{ author := "a", date := "d", hash := "h", message := "m",
             repoPath := "p", repoLabel := "l", type := "other", dateObj := 5 }] :=
  C9_theorem (fun _ => none)
    { search := "", typeFilter := "all", since := "not-a-date", sort := "desc" }
    [{ author := "a", date := "d", hash := "h", message := "m",
       repoPath := "p", repoLabel := "l", type := "other", dateObj := 5 }]
    "not-a-date" (by decide) rfl

/-- Claim C10 (confirmed): for every displayed day group, the copy-day
text is exactly one line per commit in the group's current display order
— each line `"- "` followed by the commit's message and a trailing `";"`,
joined by single newlines — and the text is a function of the ordered
messages alone, so it contains no hashes, timestamps, or author names. -/
theorem C10_theorem (ps : String → Option Int) (fmt : String → String)
    (state : ViewState) (commits : List NCommit) (g : DGroup)
    (hg : g ∈ grouped ps fmt state commits)
    (hnl : ∀ c ∈ g.items, '\n' ∉ c.message.data) :
    splitOnChar '\n' (copyDayText g.items).data
        = g.items.map (fun c => ("- " ++ c.message ++ ";").data) ∧
    ∀ items2 : List NCommit,
      items2.map NCommit.message = g.items.map NCommit.message →
      copyDayText items2 = copyDayText g.items := by
  constructor
  · have hne : g.items.map (fun c => "- " ++ c.message ++ ";") ≠ [] := by
      simp [grouped_items_ne_nil hg]
    have hclean : ∀ s ∈ g.items.map (fun c => "- " ++ c.message ++ ";"),
        '\n' ∉ s.data := by
      intro s hs
      rcases List.mem_map.mp hs with ⟨c, hc, rfl⟩
      simp only [String.data_append, List.mem_append]
      rintro ((h | h) | h)
      · revert h
        decide
      · exact hnl c hc h
      · revert h
        decide
    rw [copyDayText, splitOnChar_joinWith hne hclean, List.map_map]
    rfl
  · intro items2 hmsg
    unfold copyDayText
    have h2 : items2.map (fun c => "- " ++ c.message ++ ";")
        = (items2.map NCommit.message).map (fun msg => "- " ++ msg ++ ";") := by
      rw [List.map_map]
      rfl
    have h1 : g.items.map (fun c => "- " ++ c.message ++ ";")
        = (g.items.map NCommit.message).map (fun msg => "- " ++ msg ++ ";") := by
      rw [List.map_map]
      rfl
    rw [h2, h1, hmsg]

/-- Claim C6 (confirmed): group ordering and within-group ordering agree
with the active sort direction — under `desc` the group keys are strictly
descending and every group's items are newest first; under `asc` both are
reversed; switching direction reverses the group order only and leaves
each group's membership (as a multiset) and count label unchanged; and
the concrete example (two commits on 2024-01-01, one on 2024-01-02)
yields groups [2024-01-02, 2024-01-01] with counts [1, 2] under `desc`
and the reversed group order with the same counts under `asc`. -/
theorem C6_theorem (ps : String → Option Int) (fmt : String → String)
    (commits : List NCommit) (search tf sincev : String) :
    ((grouped ps fmt ⟨search, tf, sincev, "desc"⟩ commits).map DGroup.key).Pairwise
        (fun a b : String => b < a) ∧
    (∀ g ∈ grouped ps fmt ⟨search, tf, sincev, "desc"⟩ commits,
      g.items.Pairwise (fun a b => b.dateObj ≤ a.dateObj)) ∧
    ((grouped ps fmt ⟨search, tf, sincev, "asc"⟩ commits).map DGroup.key).Pairwise
        (fun a b : String => a < b) ∧
    (∀ g ∈ grouped ps fmt ⟨search, tf, sincev, "asc"⟩ commits,
      g.items.Pairwise (fun a b => a.dateObj ≤ b.dateObj)) ∧
    (grouped ps fmt ⟨search, tf, sincev, "asc"⟩ commits).map DGroup.key
        = ((grouped ps fmt ⟨search, tf, sincev, "desc"⟩ commits).map DGroup.key).reverse ∧
    (∀ g ∈ grouped ps fmt ⟨search, tf, sincev, "desc"⟩ commits,
      ∀ g2 ∈ grouped ps fmt ⟨search, tf, sincev, "asc"⟩ commits,
      g.key = g2.key → g.items.Perm g2.items ∧ g.countLabel = g2.countLabel) ∧
    ((grouped (fun _ => none) (fun k => k) ⟨"", "all", "", "desc"⟩
        [wCommitC6a, wCommitC6b, wCommitC6c]).map (fun g => (g.key, g.countLabel))
      = [("2024-01-02", "1 commit"), ("2024-01-01", "2 commits")] ∧
     (grouped (fun _ => none) (fun k => k) ⟨"", "all", "", "asc"⟩
        [wCommitC6a, wCommitC6b, wCommitC6c]).map (fun g => (g.key, g.countLabel))
      = [("2024-01-01", "2 commits"), ("2024-01-02", "1 commit")]) := by
  have hfperm : filteredList ps ⟨search, tf, sincev, "asc"⟩ commits
      |>.Perm (filteredList ps ⟨search, tf, sincev, "desc"⟩ commits) := by
    unfold filteredList
    apply (List.perm_insertionSort _ _).trans
    have hpred : commits.filter (commitPass ps ⟨search, tf, sincev, "asc"⟩)
        = commits.filter (commitPass ps ⟨search, tf, sincev, "desc"⟩) := rfl
    rw [hpred]
    exact (List.perm_insertionSort _ _).symm
  have hkeysperm : (groupKeys (filteredList ps ⟨search, tf, sincev, "asc"⟩ commits)).Perm
      (groupKeys (filteredList ps ⟨search, tf, sincev, "desc"⟩ commits)) := by
    rw [List.perm_ext_iff_of_nodup (nodup_groupKeys _) (nodup_groupKeys _)]
    intro q
    rw [mem_groupKeys, mem_groupKeys]
    constructor
    · rintro ⟨c, hc, hkey⟩
      exact ⟨c, hfperm.subset hc, hkey⟩
    · rintro ⟨c, hc, hkey⟩
      exact ⟨c, hfperm.symm.subset hc, hkey⟩
  refine ⟨?_, ?_, ?_, ?_, ?_, ?_, by decide, by decide⟩
  · rw [grouped_map_key_mk]
    exact keys_sorted_desc (nodup_groupKeys _)
  · intro g hg
    simp only [grouped] at hg
    rcases List.mem_map.mp hg with ⟨k, hk, rfl⟩
    have hp := pairwise_insertionSort_itemLE "desc"
      ((filteredList ps ⟨search, tf, sincev, "desc"⟩ commits).filter
        (fun c => decide (keyOf c = k)))
    exact hp.imp (fun hab => by simpa [itemLE] using hab)
  · rw [grouped_map_key_mk]
    exact keys_sorted_asc (nodup_groupKeys _)
  · intro g hg
    simp only [grouped] at hg
    rcases List.mem_map.mp hg with ⟨k, hk, rfl⟩
    have hp := pairwise_insertionSort_itemLE "asc"
      ((filteredList ps ⟨search, tf, sincev, "asc"⟩ commits).filter
        (fun c => decide (keyOf c = k)))
    exact hp.imp (fun hab => by simpa [itemLE] using hab)
  · rw [grouped_map_key_mk, grouped_map_key_mk]
    haveI : IsAntisymm String (fun a b : String => a < b) :=
      ⟨fun a b h1 h2 => absurd (h1.trans h2) (lt_irrefl a)⟩
    apply List.eq_of_perm_of_sorted (r := fun a b : String => a < b)
    · exact (List.perm_insertionSort _ _).trans
        (hkeysperm.trans
          ((List.perm_insertionSort _ _).symm.trans (List.reverse_perm _).symm))
    · exact keys_sorted_asc (nodup_groupKeys _)
    · exact List.pairwise_reverse.mpr (keys_sorted_desc (nodup_groupKeys _))
  · intro g hg g2 hg2 hkeyeq
    simp only [grouped] at hg hg2
    rcases List.mem_map.mp hg with ⟨k, hk, rfl⟩
    rcases List.mem_map.mp hg2 with ⟨k2, hk2, rfl⟩
    have hk12 : k = k2 := hkeyeq
    subst hk12
    constructor
    · exact (List.perm_insertionSort _ _).trans
        ((hfperm.symm.filter _).trans (List.perm_insertionSort _ _).symm)
    · show countLabelOf _ = countLabelOf _
      congr 1
      exact ((hfperm.filter _).length_eq).symm

/-- Witness for C6: the reversal clause of the theorem at the concrete
example — switching the concrete example view to `asc` reverses the group
key order. -/
theorem C6_witness :
    (grouped (fun _ => none) (fun k => k) ⟨"", "all", "", "asc"⟩
        [wCommitC6a, wCommitC6b, wCommitC6c]).map DGroup.key
      = ((grouped (fun _ => none) (fun k => k) ⟨"", "all", "", "desc"⟩
          [wCommitC6a, wCommitC6b, wCommitC6c]).map DGroup.key).reverse :=
  (C6_theorem (fun _ => none) (fun k => k) [wCommitC6a, wCommitC6b, wCommitC6c]
    "" "all" "").2.2.2.2.1

/-- Every path the walk ever holds (queued, recorded, or returned) lies
under the start with no skip-set component below it. -/
theorem walkLoop_good (fs : List String → Option (List FSEntry)) (start : List String) :
    ∀ (fuel : Nat) (queue repos : List (List String)),
      (∀ p ∈ queue, ∃ rel, p = start ++ rel ∧ ∀ c ∈ rel, c ∉ skipDirs) →
      (∀ p ∈ repos, ∃ rel, p = start ++ rel ∧ ∀ c ∈ rel, c ∉ skipDirs) →
      ∀ p ∈ walkLoop fs fuel queue repos,
        ∃ rel, p = start ++ rel ∧ ∀ c ∈ rel, c ∉ skipDirs := by
  intro fuel
  induction fuel with
  | zero =>
    intro queue repos hq hr p hp
    exact hr p hp
  | succ n ih =>
    intro queue repos hq hr p hp
    match queue with
    | [] => exact hr p hp
    | current :: stack =>
      simp only [walkLoop] at hp
      cases hfs : fs current with
      | none =>
        rw [hfs] at hp
        exact ih stack repos (fun q hqq => hq q (List.mem_cons_of_mem _ hqq)) hr p hp
      | some entries =>
        rw [hfs] at hp
        dsimp only at hp
        obtain ⟨relc, hrelc, hgoodc⟩ := hq current (List.mem_cons_self _ _)
        refine ih _ _ ?_ ?_ p hp
        · intro q hqq
          rcases List.mem_append.mp hqq with hmem | hmem
          · rw [List.mem_reverse] at hmem
            rcases List.mem_map.mp hmem with ⟨e, he, rfl⟩
            have hef := List.mem_filter.mp he
            have hcond := hef.2
            simp only [Bool.and_eq_true, Bool.not_eq_true'] at hcond
            refine ⟨relc ++ [e.name], by rw [hrelc, List.append_assoc], ?_⟩
            intro c hc
            rcases List.mem_append.mp hc with hc | hc
            · exact hgoodc c hc
            · rw [List.mem_singleton] at hc
              subst hc
              intro habs
              have hc2 : skipDirs.contains e.name = true := List.elem_eq_true_of_mem habs
              have hfalse := hcond.2
              rw [hc2] at hfalse
              exact absurd hfalse (by decide)
          · exact hq q (List.mem_cons_of_mem _ hmem)
        · intro q hqq
          by_cases hgit : entries.any (fun e => e.name == ".git") = true
          · rw [if_pos hgit] at hqq
            rcases List.mem_append.mp hqq with hmem | hmem
            · exact hr q hmem
            · rw [List.mem_singleton] at hmem
              subst hmem
              exact ⟨relc, hrelc, hgoodc⟩
          · rw [if_neg hgit] at hqq
            exact hr q hqq

/-- Claim C8 (confirmed): the traversal only ever enqueues children that
are real (non-symlink) directories whose names are outside the skip set,
which contains `.git` — so it never descends into a `.git` marker
directory or any skip-set directory and never follows a symbolic link —
and consequently the returned set never contains a path nested inside
another returned path's marker directory. -/
theorem C8_theorem :
    (∀ (current : List String) (entries : List FSEntry) (p : List String),
      p ∈ childrenToEnqueue current entries →
      ∃ e ∈ entries, p = current ++ [e.name] ∧ e.isSymbolicLink = false ∧
        e.isDirectory = true ∧ e.name ∉ skipDirs) ∧
    (".git" : String) ∈ skipDirs ∧
    (∀ (fs : List String → Option (List FSEntry)) (fuel : Nat)
        (start p q : List String),
      p ∈ walkForRepos fs fuel start → q ∈ walkForRepos fs fuel start →
      ∀ rest, q ≠ p ++ ".git" :: rest) := by
  refine ⟨?_, by decide, ?_⟩
  · intro current entries p hp
    rcases List.mem_map.mp hp with ⟨e, he, rfl⟩
    have hef := List.mem_filter.mp he
    have hcond := hef.2
    simp only [Bool.and_eq_true, Bool.not_eq_true'] at hcond
    refine ⟨e, hef.1, rfl, hcond.1.1, hcond.1.2, ?_⟩
    intro habs
    have hc2 : skipDirs.contains e.name = true := List.elem_eq_true_of_mem habs
    have hfalse := hcond.2
    rw [hc2] at hfalse
    exact absurd hfalse (by decide)
  · intro fs fuel start p q hp hq rest hcon
    have hinitq : ∀ x ∈ [start], ∃ rel, x = start ++ rel ∧ ∀ c ∈ rel, c ∉ skipDirs := by
      intro x hx
      rw [List.mem_singleton] at hx
      subst hx
      exact ⟨[], by simp, by simp⟩
    have hinitr : ∀ x ∈ ([] : List (List String)),
        ∃ rel, x = start ++ rel ∧ ∀ c ∈ rel, c ∉ skipDirs := by
      intro x hx
      exact absurd hx (List.not_mem_nil x)
    obtain ⟨relp, hrelp, _⟩ := walkLoop_good fs start fuel [start] [] hinitq hinitr p hp
    obtain ⟨relq, hrelq, hgoodq⟩ := walkLoop_good fs start fuel [start] [] hinitq hinitr q hq
    rw [hrelp, hrelq, List.append_assoc] at hcon
    have hrel : relq = relp ++ ".git" :: rest := by
      exact List.append_cancel_left hcon
    have hmem : (".git" : String) ∈ relq := by
      rw [hrel]
      exact List.mem_append_right _ (List.mem_cons_self _ _)
    exact hgoodq ".git" hmem (by decide)

/-- Witness for C8: in the concrete two-repository filesystem, the
enqueued child `root/a` arises from a non-symlink directory entry outside
the skip set, and the two returned repositories `root` and `root/a` are
not nested through a marker directory. -/
theorem C8_witness :
    (∃ e ∈ [({ name := ".git", isDirectory := true, isSymbolicLink := false } : FSEntry),
            { name := "a", isDirectory := true, isSymbolicLink := false }],
      (["root", "a"] : List String) = ["root"] ++ [e.name] ∧ e.isSymbolicLink = false ∧
        e.isDirectory = true ∧ e.name ∉ skipDirs) ∧
    ∀ rest, (["root", "a"] : List String) ≠ ["root"] ++ ".git" :: rest :=
  ⟨C8_theorem.1 ["root"]
      [{ name := ".git", isDirectory := true, isSymbolicLink := false },
       { name := "a", isDirectory := true, isSymbolicLink := false }]
      ["root", "a"] (by decide),
   fun rest => C8_theorem.2.2 wFS 3 ["root"] ["root"] ["root", "a"]
      (by decide) (by decide) rest⟩

/-- Witness for C10: the line decomposition of the copy-day text of the
single displayed group of a one-commit view. -/
theorem C10_witness :
    splitOnChar '\n' (copyDayText wGroupC10.items).data
      = wGroupC10.items.map (fun c => ("- " ++ c.message ++ ";").data) :=
  (C10_theorem (fun _ => none) (fun k => k)
    { search := "", typeFilter := "all", since := "", sort := "desc" }
    [wCommitC10] wGroupC10 (by decide) (by decide)).1

end CommitsViewer
